/-
Verification of the code-RAG indexing/retrieval core
(`mcp/code-RAG/chunker.py`, `rag_engine.py`, `analysis.py`).

Shallow embedding conventions:
* Python lists become `List`, dicts become association lists (`List (α × β)`
  read through `List.lookup`, newest binding first), sets become `Finset ℕ`
  or membership-guarded lists.
* `tree_sitter` parse results are modelled by the inductive `TSNode`
  (node type, 0-based start/end rows as tree-sitter reports them, node text,
  children); the traversal and gap-scan logic of `chunk_by_functions` is
  translated literally.
* The sentence-transformers encoder, the numpy cosine kernel, the regex
  engine and the lancedb nearest-neighbour search are external components;
  they appear as explicit function parameters, while every line of control
  flow around them is translated from the source.
* Floating-point scores/timestamps are modelled over `ℚ`.
-/
import Mathlib

namespace CodeRAG

/-- One chunk produced by `chunker.py` (dict with keys
`start_line`, `end_line`, `content`, `name`, `kind`). -/
structure Chunk where
  startLine : ℕ
  endLine : ℕ
  content : String
  name : String
  kind : String
deriving DecidableEq, Repr

/-- Python `str.strip()` on the whitespace characters Lean knows
(space, tab, CR, LF): drop whitespace from both ends. -/
def pyStrip (s : String) : String :=
  ⟨(((s.data.dropWhile Char.isWhitespace).reverse.dropWhile Char.isWhitespace).reverse)⟩

/-- `s` contains at least one non-whitespace character
(Python truthiness of `s.strip()`). -/
def hasNonWs (s : String) : Prop := ∃ c ∈ s.data, ¬ c.isWhitespace

instance (s : String) : Decidable (hasNonWs s) := by
  unfold hasNonWs; infer_instance

/-- Python `source.split("\n")`: split the character sequence on the
newline character (for a one-character separator this agrees with
Python's `str.split`).  Always returns at least one element. -/
def pySplitLines (s : String) : List String :=
  (s.data.splitOn '\n').map List.asString

/-- Python `"\n".join(parts)`. -/
def pyJoinLines : List String → String
  | [] => ""
  | [x] => x
  | x :: xs => x ++ "\n" ++ pyJoinLines xs

/-- The window loop of `_chunk_by_lines_fallback` for `len(lines) = n`,
current offset `i` (0-based), window 60, step 50:
`for i in range(0, len(lines), step): end = min(i+60,n); append; break if end >= n`.
Returns the `(start_line, end_line)` pairs (1-based, inclusive). -/
def fallbackWindows (n : ℕ) (i : ℕ) : List (ℕ × ℕ) :=
  if n ≤ i + 60 then [(i + 1, n)]
  else (i + 1, i + 60) :: fallbackWindows n (i + 50)
termination_by n - i
decreasing_by omega

/-- `_chunk_by_lines_fallback(source, language)` with the default
`chunk_lines = 60`, `overlap = 10` (step 50). -/
def chunkByLinesFallback (source : String) : List Chunk :=
  let lines := pySplitLines source
  if lines.length ≤ 60 then
    [⟨1, lines.length, source, "", "block"⟩]
  else
    (fallbackWindows lines.length 0).map fun w =>
      ⟨w.1, w.2, pyJoinLines ((lines.drop (w.1 - 1)).take (w.2 - (w.1 - 1))), "", "block"⟩

/-! ## Structural tier of `chunk_by_functions` (chunker.py lines 13-109)

The tree-sitter parse result is the abstract input: a `TSNode` carries the
node type string, the 0-based start/end rows (`node.start_point[0]`,
`node.end_point[0]`), the node's source text (`source_bytes[start:end]`)
and the child list. -/

/-- Constant `MIN_CHUNK_LINES = 3` of chunker.py (defined there, unused). -/
def MIN_CHUNK_LINES : ℕ := 3

/-- Constant `MAX_CHUNK_LINES = 120` of chunker.py. -/
def MAX_CHUNK_LINES : ℕ := 120

/-- Constant `GLUE_THRESHOLD = 8` of chunker.py.  Note: the constant is
defined in the source but never referenced by any function. -/
def GLUE_THRESHOLD : ℕ := 8

/-- A tree-sitter syntax node. -/
inductive TSNode where
  | mk (nodeType : String) (startRow : ℕ) (endRow : ℕ) (text : String)
       (children : List TSNode)

def TSNode.nodeType : TSNode → String
  | .mk ty _ _ _ _ => ty

def TSNode.children : TSNode → List TSNode
  | .mk _ _ _ _ cs => cs

def TSNode.text : TSNode → String
  | .mk _ _ _ tx _ => tx

/-- `_get_name(node)`: text of the first child whose type is an
identifier-like kind, else `""`. -/
def getNameOf (children : List TSNode) : String :=
  match children.find? (fun c =>
      c.nodeType ∈ ["identifier", "name", "type_identifier", "property_identifier"]) with
  | some c => c.text
  | none => ""

mutual
/-- The recursive `visit(node)` closure of `chunk_by_functions`:
returns the chunks appended by this subtree together with the set of lines
added to `covered`.  `ft` is `FUNC_NODE_TYPES[ts_lang]`, `tc` is the
global `TOP_LEVEL_CONTAINERS` union. -/
def visit (ft tc : List String) : TSNode → List Chunk × Finset ℕ
  | .mk ty sr er tx cs =>
    if ty ∈ ft then
      if MAX_CHUNK_LINES < (er + 1) - (sr + 1) + 1 ∧ ty ∈ tc then
        visitList ft tc cs
      else
        ([⟨sr + 1, er + 1, tx, getNameOf cs, ty⟩], Finset.Icc (sr + 1) (er + 1))
    else visitList ft tc cs

/-- `for child in node.children: visit(child)` — chunks in depth-first
order, covered lines united. -/
def visitList (ft tc : List String) : List TSNode → List Chunk × Finset ℕ
  | [] => ([], ∅)
  | n :: ns =>
    let r := visit ft tc n
    let rs := visitList ft tc ns
    (r.1 ++ rs.1, r.2 ∪ rs.2)
end

/-- `"\n".join(lines[g-1 : b])`: text of the line run `[g, b]` (1-based,
inclusive); matches both gap slices of the source (`lines[gap_start-1:i-1]`
and the trailing `lines[gap_start-1:]`). -/
def gapText (lines : List String) (g b : ℕ) : String :=
  pyJoinLines ((lines.drop (g - 1)).take (b - g + 1))

/-- Emit one gap chunk for the run `[g, b]` when its text has non-blank
content (`if gap_text.strip():`), else nothing. -/
def emitGap (lines : List String) (g b : ℕ) : List Chunk :=
  if pyStrip (gapText lines g b) ≠ "" then [⟨g, b, gapText lines g b, "", "gap"⟩] else []

/-- The body of the gap scan of `chunk_by_functions` (lines 76-103) over
the remaining loop indices, carrying `gap_start`: a covered line closes
and emits the current run `[gap_start, i-1]`, an uncovered line opens or
extends a run, and loop exit flushes the final run `[gap_start, n]`. -/
def gapGo (lines : List String) (covered : Finset ℕ) :
    List ℕ → Option ℕ → List Chunk
  | [], gapStart =>
    match gapStart with
    | some g => emitGap lines g lines.length
    | none => []
  | i :: rest, gapStart =>
    if i ∈ covered then
      (match gapStart with
       | some g => emitGap lines g (i - 1)
       | none => []) ++ gapGo lines covered rest none
    else
      match gapStart with
      | some _ => gapGo lines covered rest gapStart
      | none => gapGo lines covered rest (some i)

/-- The gap scan: `for i in range(1, len(lines) + 1)` with
`gap_start = None` initially. -/
def gapScan (lines : List String) (covered : Finset ℕ) : List Chunk :=
  gapGo lines covered (List.range' 1 lines.length) none

/-- Stable insertion of a chunk behind all chunks with a strictly smaller
start line (and in front of equal keys; combined with `List.foldr` this
keeps equal-key chunks in their original order). -/
def insertByStart (c : Chunk) : List Chunk → List Chunk
  | [] => [c]
  | d :: ds => if d.startLine < c.startLine then d :: insertByStart c ds else c :: d :: ds

/-- `chunks.sort(key=lambda c: c["start_line"])` — a stable sort by start
line (insertion sort; Python's stable sort produces the same list). -/
def sortByStartLine (l : List Chunk) : List Chunk :=
  l.foldr insertByStart []

/-- `chunk_by_functions(source, language)`.  The `tree` argument is the
tree-sitter parse of `source`: `none` models every path that reaches
`_chunk_by_lines_fallback` directly (no tree-sitter support, unknown
language, parser construction failure). -/
def chunkByFunctions (ft tc : List String) (source : String) (tree : Option TSNode) :
    List Chunk :=
  match tree with
  | none => chunkByLinesFallback source
  | some root =>
    let r := visit ft tc root
    let lines := pySplitLines source
    let chunks := r.1 ++ gapScan lines r.2
    if chunks = [] then chunkByLinesFallback source
    else sortByStartLine chunks

/-- `FUNC_NODE_TYPES["python"]` from lang_registry.py. -/
def pythonFuncNodes : List String := ["function_definition", "class_definition"]

/-- `FUNC_NODE_TYPES["rust"]` from lang_registry.py. -/
def rustFuncNodes : List String :=
  ["function_item", "impl_item", "trait_item", "struct_item", "enum_item"]

/-- The global `TOP_LEVEL_CONTAINERS` union built by
`lang_registry._build_lookups` over every language's `top_containers`. -/
def topLevelContainers : List String :=
  ["impl_item", "trait_item",
   "class_declaration", "interface_declaration",
   "class_specifier", "struct_specifier", "namespace_definition",
   "struct_declaration", "namespace_declaration",
   "trait_declaration", "enum_declaration",
   "object_declaration",
   "class_definition", "object_definition", "trait_definition",
   "class", "module",
   "class_interface", "class_implementation",
   "module_definition"]

/-! ## `RAGEngine` (rag_engine.py)

The lancedb connection, the sentence-transformers model and the sha256
digest are external; they enter as the `EngineParams` fields.  Engine
state is the `code_chunks` table (`none` = table absent), the in-memory
`_file_hashes` dict and its on-disk copy `file_hashes.json`. -/

/-- One row of the `code_chunks` table (CODE_SCHEMA).  A pending chunk
dict before encoding is the same record with `vector := []`; the
`"vector"` key is filled in by `index_directory` after `_batch_encode`. -/
structure Rec where
  id : String
  content : String
  source : String
  startLine : ℕ
  endLine : ℕ
  language : String
  vector : List ℚ
deriving DecidableEq, Repr

/-- Engine state: `self.table`, `self._file_hashes`, and the persisted
hash file.  Dicts are association lists, newest binding first. -/
structure EngineState where
  table : Option (List Rec)
  fileHashes : List (String × String)
  diskHashes : List (String × String)
deriving DecidableEq, Repr

/-- External collaborators of `index_directory`:
`langOf` = `ext_to_lang` on the file's suffix/name, `hashFn` = `_file_hash`
(sha256 prefix), `chunkFn source lang` = `chunk_by_functions`, `encode` =
one `model.encode` call (`none` = the provider raised). -/
structure EngineParams where
  langOf : String → String
  hashFn : String → String
  chunkFn : String → String → List Chunk
  encode : String → Option (List ℚ)

/-- The dict returned by `index_directory`. -/
structure IndexStats where
  totalFiles : ℕ
  indexed : ℕ
  skippedUnchanged : ℕ
  chunksCreated : ℕ
deriving DecidableEq, Repr

/-- Loop state of the per-file loop of `index_directory`:
`pending_chunks` (with `pending_texts` recoverable as their contents),
the in-memory hash dict, and the two counters. -/
structure LoopState where
  pending : List Rec
  hashes : List (String × String)
  indexed : ℕ
  skipped : ℕ
deriving Repr

/-- Build the pending record for one chunk of `file_key = path`
(`chunk_id = f"{file_key}:{start}-{end}"`). -/
def mkRec (path lang : String) (c : Chunk) : Rec :=
  ⟨path ++ ":" ++ toString c.startLine ++ "-" ++ toString c.endLine,
   c.content, path, c.startLine, c.endLine, lang, []⟩

/-- The records a changed file contributes to `pending_chunks`:
its chunks minus those with `len(content.strip()) < 10`. -/
def recsFor (P : EngineParams) (f : String × String) : List Rec :=
  ((P.chunkFn f.2 (P.langOf f.1)).filter
      (fun c => ¬ (pyStrip c.content).length < 10)).map
    (mkRec f.1 (P.langOf f.1))

/-- One iteration of the file loop of `index_directory` (lines 315-347):
skip when the stored hash matches, otherwise chunk, filter, accumulate and
record the new hash. -/
def processFile (P : EngineParams) (st : LoopState) (f : String × String) : LoopState :=
  if List.lookup f.1 st.hashes = some (P.hashFn f.2) then
    { st with skipped := st.skipped + 1 }
  else
    { pending := st.pending ++ recsFor P f,
      hashes := (f.1, P.hashFn f.2) :: st.hashes,
      indexed := st.indexed + 1,
      skipped := st.skipped }

/-- `_batch_encode(texts)`: encode each text; an exception from the
provider anywhere loses the whole batch.  (The source slices the list
into batches of 64 and concatenates; per-text results and the
all-or-nothing failure behaviour are identical.) -/
def batchEncode (enc : String → Option (List ℚ)) : List String → Option (List (List ℚ))
  | [] => some []
  | t :: ts =>
    match enc t, batchEncode enc ts with
    | some v, some vs => some (v :: vs)
    | _, _ => none

/-- `for chunk, vec in zip(pending_chunks, vectors): chunk["vector"] = vec`. -/
def attachVectors (pending : List Rec) (vecs : List (List ℚ)) : List Rec :=
  List.zipWith (fun r v => { r with vector := v }) pending vecs

/-- The atomic table replacement of `index_directory` (lines 355-369):
keep every existing row whose source is not among the stale sources
(`{c["source"] for c in pending_chunks}`), then append the new records;
with no existing table the new records stand alone. -/
def mergeTable (oldTable : Option (List Rec)) (newRecs : List Rec) : List Rec :=
  match oldTable with
  | none => newRecs
  | some t => t.filter (fun r => r.source ∉ newRecs.map Rec.source) ++ newRecs

/-- `RAGEngine.index_directory` (lines 306-378) over the walked
`files` (path, content) pairs — files whose `read_text` raised are
already absent from the list.  The second component is `none` when the
embedding provider raised (the Python exception propagates to the
caller); the first component is the engine state left behind in either
case. -/
def indexDirectory (P : EngineParams) (files : List (String × String)) (s : EngineState) :
    EngineState × Option IndexStats :=
  let st := files.foldl (processFile P) ⟨[], s.fileHashes, 0, 0⟩
  if st.pending = [] then
    ({ table := s.table, fileHashes := st.hashes, diskHashes := st.hashes },
     some ⟨files.length, st.indexed, st.skipped, 0⟩)
  else
    match batchEncode P.encode (st.pending.map (·.content)) with
    | none =>
      ({ table := s.table, fileHashes := st.hashes, diskHashes := s.diskHashes }, none)
    | some vecs =>
      ({ table := some (mergeTable s.table (attachVectors st.pending vecs)),
         fileHashes := st.hashes, diskHashes := st.hashes },
       some ⟨files.length, st.indexed, st.skipped, st.pending.length⟩)

/-- The rows of the `code_chunks` table (empty when the table is absent). -/
def tableRecs (s : EngineState) : List Rec :=
  s.table.getD []

/-- One entry of the list returned by `RAGEngine.search`. -/
structure SearchResult where
  content : String
  source : String
  startLine : ℕ
  endLine : ℕ
  language : String
  score : ℚ
deriving DecidableEq, Repr

/-- `RAGEngine.search` (lines 384-410).  `encodeQ` is `model.encode` on
the query; `nn table vec top_k language` abstracts the lancedb
builder/`where`/`to_list` pipeline returning `(row, _distance)` pairs
(an exception there yields `[]`, absorbed into `nn`). -/
def search (encodeQ : String → List ℚ)
    (nn : List Rec → List ℚ → ℕ → Option String → List (Rec × ℚ))
    (s : EngineState) (query : String) (topK : ℕ) (language : Option String) :
    List SearchResult :=
  match s.table with
  | none => []
  | some t =>
    (nn t (encodeQ query) topK language).map fun rd =>
      ⟨rd.1.content, rd.1.source, rd.1.startLine, rd.1.endLine, rd.1.language,
       1 / (1 + rd.2)⟩

/-- `RAGEngine.clear` (lines 425-432): drop the table, reset the hash
dict and persist the empty dict. -/
def clear (_s : EngineState) : EngineState :=
  { table := none, fileHashes := [], diskHashes := [] }

/-! ## `RAGEngine.compact_knowledge` (rag_engine.py lines 632-675)

The numpy normalised-dot-product kernel is external; it enters as the
`sim` parameter (for rows `i`, `j` the code computes
`float(np.dot(normalized[i], normalized[j]))`). -/

/-- One row of the `knowledge` table, restricted to the fields compaction
reads. -/
structure KEntry where
  id : String
  timestamp : ℚ
  vector : List ℚ
deriving DecidableEq, Repr

/-- Fallback row for out-of-range indexing (never reached on the index
ranges used). -/
def dfltKEntry : KEntry := ⟨"", 0, []⟩

/-- The `remove_ids` set built by the O(n²) double loop of
`compact_knowledge`; membership-guarded insertion keeps the list
duplicate-free exactly like the Python set. -/
def compactRemoveIds (sim : KEntry → KEntry → ℚ) (θ : ℚ) (rows : List KEntry) :
    List String :=
  (List.range rows.length).foldl
    (fun removed i =>
      let ri := rows.getD i dfltKEntry
      if ri.id ∈ removed then removed
      else
        (List.range' (i + 1) (rows.length - (i + 1))).foldl
          (fun removed' j =>
            let rj := rows.getD j dfltKEntry
            if rj.id ∈ removed' then removed'
            else if θ ≤ sim ri rj then
              let olderId := if ri.timestamp < rj.timestamp then ri.id else rj.id
              if olderId ∈ removed' then removed' else olderId :: removed'
            else removed')
          removed)
    []

/-- `RAGEngine.compact_knowledge`: rows kept in the rebuilt table and the
`removed` count (`{"removed": len(remove_ids), "kept": len(rows) - ...}`). -/
def compactKnowledge (sim : KEntry → KEntry → ℚ) (θ : ℚ) (rows : List KEntry) :
    List KEntry × ℕ :=
  if rows.length < 2 then (rows, 0)
  else
    let removeIds := compactRemoveIds sim θ rows
    (rows.filter (fun r => r.id ∉ removeIds), removeIds.length)

/-! ## `get_dependency_graph` (analysis.py lines 183-230)

The regex engine and the filesystem probes of `_resolve_import` are
external: `findImports lang content` returns, per import pattern of
`IMPORT_PATTERNS[lang]`, the truthy raw literals its matches produce in
order; `resolveImport raw srcPath lang` is `_resolve_import` (with the
fixed project root folded in); `normpath` is `os.path.normpath`. -/

/-- External collaborators of the dependency view. -/
structure DepParams where
  extToLang : String → String
  findImports : String → String → List (List String)
  resolveImport : String → String → String → Option String
  normpath : String → String

/-- The dict returned by `get_dependency_graph`: the `"imports"` list of
`{"raw", "resolved"}` pairs and the `"imported_by"` path list. -/
structure DepView where
  imports : List (String × Option String)
  importedBy : List String
deriving DecidableEq, Repr

/-- Does file `f = (path, content)` import the target (one pattern's raw
literals `ps`): some literal resolves to an existing path that normalises
to the target's path. -/
def patternHitsTarget (D : DepParams) (fPath target : String) (ps : List String) : Bool :=
  ps.any fun raw =>
    match D.resolveImport raw fPath (D.extToLang fPath) with
    | some r => D.normpath r == D.normpath target
    | none => false

/-- `get_dependency_graph(file_path, project_root)` for an existing,
supported-language target with content `targetContent`; `files` are the
walked (path, content) pairs of the tree (unreadable files already
dropped).  The reverse scan appends a file once per pattern with a
resolving match (the `break` leaves only the innermost loop). -/
def getDependencyGraph (D : DepParams) (files : List (String × String))
    (target targetContent : String) : DepView :=
  let imports :=
    ((D.findImports (D.extToLang target) targetContent).flatMap id).map
      fun raw => (raw, D.resolveImport raw target (D.extToLang target))
  let importedBy :=
    files.flatMap fun f =>
      if f.1 ≠ target ∧ D.extToLang f.1 ≠ "" ∧ D.extToLang f.1 ≠ "text" then
        ((D.findImports (D.extToLang f.1) f.2).filter
            (patternHitsTarget D f.1 target)).map (fun _ => f.1)
      else []
  ⟨imports, importedBy⟩

/-! ## Helper lemmas -/

lemma insertByStart_ne_nil (c : Chunk) (l : List Chunk) : insertByStart c l ≠ [] := by
  cases l with
  | nil => simp [insertByStart]
  | cons d ds => simp only [insertByStart]; split <;> simp

lemma sortByStartLine_ne_nil {l : List Chunk} (h : l ≠ []) : sortByStartLine l ≠ [] := by
  cases l with
  | nil => exact absurd rfl h
  | cons x xs => exact insertByStart_ne_nil x _

lemma mem_insertByStart {c d : Chunk} {l : List Chunk} :
    d ∈ insertByStart c l ↔ d = c ∨ d ∈ l := by
  induction l with
  | nil => simp [insertByStart]
  | cons e es ih =>
    simp only [insertByStart]
    split <;> simp only [List.mem_cons, ih] <;> tauto

lemma mem_sortByStartLine {d : Chunk} {l : List Chunk} :
    d ∈ sortByStartLine l ↔ d ∈ l := by
  induction l with
  | nil => simp [sortByStartLine]
  | cons x xs ih =>
    simp only [sortByStartLine, List.foldr_cons] at *
    rw [mem_insertByStart, ih]
    simp

lemma pySplitLines_ne_nil (s : String) : pySplitLines s ≠ [] := by
  unfold pySplitLines
  simp only [ne_eq, List.map_eq_nil_iff]
  unfold List.splitOn
  exact List.splitOnP_ne_nil _ _

lemma pySplitLines_length_pos (s : String) : 0 < (pySplitLines s).length :=
  List.length_pos.mpr (pySplitLines_ne_nil s)

lemma fallbackWindows_getLast? (n i : ℕ) :
    ∃ s, (fallbackWindows n i).getLast? = some (s, n) := by
  induction i using fallbackWindows.induct n with
  | case1 i h => exact ⟨i + 1, by rw [fallbackWindows, if_pos h]; rfl⟩
  | case2 i h ih =>
    obtain ⟨s, hs⟩ := ih
    refine ⟨s, ?_⟩
    rw [fallbackWindows, if_neg h, List.getLast?_cons, hs]
    rfl

lemma fallbackWindows_length (n : ℕ) : ∀ (i : ℕ), i + 60 < n →
    (fallbackWindows n i).length = (n - i - 11) / 50 + 1 := by
  intro i
  induction i using fallbackWindows.induct n with
  | case1 i h1 => omega
  | case2 i h1 ih =>
    intro h
    rw [fallbackWindows, if_neg h1]
    by_cases h2 : i + 50 + 60 < n
    · rw [List.length_cons, ih h2]
      have e : n - i - 11 = (n - (i + 50) - 11) + 50 := by omega
      rw [e, Nat.add_div_right _ (by norm_num)]
    · rw [fallbackWindows, if_pos (by omega)]
      simp only [List.length_cons, List.length_nil]
      have e : n - i - 11 = (n - i - 11 - 50) + 50 := by omega
      rw [e, Nat.add_div_right _ (by norm_num)]
      have h0 : (n - i - 11 - 50) / 50 = 0 := Nat.div_eq_of_lt (by omega)
      omega

/-! ## C7, C9, C10, C5, C8 -/

/-- C7: the fixed-window fallback (window 60, overlap 10, step 50) on an
`N`-line input ends its final window exactly at line `N`, and the number
of windows is `⌈N/50⌉`-scale: it lies within one of `⌈N/50⌉ = (N+49)/50`. -/
theorem fallback_last_window_and_count (source : String) :
    ((chunkByLinesFallback source).getLast?.map Chunk.endLine
        = some (pySplitLines source).length) ∧
    ((pySplitLines source).length + 49) / 50 - 1 ≤ (chunkByLinesFallback source).length ∧
    (chunkByLinesFallback source).length ≤ ((pySplitLines source).length + 49) / 50 := by
  have hn := pySplitLines_length_pos source
  simp only [chunkByLinesFallback]
  by_cases h : (pySplitLines source).length ≤ 60
  · rw [if_pos h]
    refine ⟨rfl, ?_, ?_⟩ <;> simp only [List.length_singleton] <;> omega
  · rw [if_neg h]
    obtain ⟨s, hs⟩ := fallbackWindows_getLast? (pySplitLines source).length 0
    have hlen := fallbackWindows_length (pySplitLines source).length 0 (by omega)
    constructor
    · rw [List.getLast?_map, hs]
      rfl
    · rw [List.length_map, hlen]
      omega

/-- C9: searching a scope whose chunk table is absent — in particular the
state left by `clear` — returns the empty result list for every query,
never an error. -/
theorem search_after_clear_empty (encodeQ : String → List ℚ)
    (nn : List Rec → List ℚ → ℕ → Option String → List (Rec × ℚ))
    (s : EngineState) (query : String) (topK : ℕ) (language : Option String) :
    search encodeQ nn (clear s) query topK language = [] := rfl

/-- C10: `chunk_by_functions` returns a non-empty chunk list for every
source and parse result; the fixed-window fallback always returns at
least one `"block"` chunk, and for inputs of at most 60 lines exactly one
chunk spanning lines 1 to N. -/
theorem chunkByFunctions_never_empty (ft tc : List String) (source : String)
    (tree : Option TSNode) :
    chunkByFunctions ft tc source tree ≠ [] ∧
    chunkByLinesFallback source ≠ [] ∧
    ((pySplitLines source).length ≤ 60 →
      chunkByLinesFallback source
        = [⟨1, (pySplitLines source).length, source, "", "block"⟩]) := by
  have hfb : chunkByLinesFallback source ≠ [] := by
    simp only [chunkByLinesFallback]
    split
    · simp
    · simp only [ne_eq, List.map_eq_nil_iff]
      rw [fallbackWindows]
      split <;> simp
  refine ⟨?_, hfb, ?_⟩
  · unfold chunkByFunctions
    match tree with
    | none => exact hfb
    | some root =>
      simp only
      split
      · exact hfb
      · next h => exact sortByStartLine_ne_nil h
  · intro h
    unfold chunkByLinesFallback
    rw [if_pos h]

/-- C10 witness: the fallback at a concrete 2-line input. -/
theorem chunkByFunctions_never_empty_witness :
    chunkByFunctions [] [] "a\nb" none ≠ [] ∧
    chunkByLinesFallback "a\nb" ≠ [] ∧
    chunkByLinesFallback "a\nb" = [⟨1, 2, "a\nb", "", "block"⟩] := by
  have h := chunkByFunctions_never_empty [] [] "a\nb" none
  exact ⟨h.1, h.2.1, by
    have := h.2.2 (by decide)
    simpa using this⟩

/-- C5: for a knowledge store holding exactly two entries whose similarity
is at or above the threshold and whose timestamps differ, compaction
removes exactly the older entry and keeps the newer one, for both
orderings of the rows. -/
theorem compactKnowledge_pair_keeps_newer (sim : KEntry → KEntry → ℚ) (θ : ℚ)
    (a b : KEntry) (hsim : θ ≤ sim a b) (hsim' : θ ≤ sim b a)
    (hts : a.timestamp < b.timestamp) (hid : a.id ≠ b.id) :
    compactKnowledge sim θ [a, b] = ([b], 1) ∧
    compactKnowledge sim θ [b, a] = ([b], 1) := by
  have hrange : List.range 2 = [0, 1] := rfl
  have h1 : compactRemoveIds sim θ [a, b] = [a.id] := by
    have hlen : ([a, b] : List KEntry).length = 2 := rfl
    unfold compactRemoveIds
    rw [hlen, hrange]
    simp only [List.foldl_cons, List.foldl_nil]
    norm_num [List.getD]
    rw [if_pos hsim, if_pos hts]
  have h2 : compactRemoveIds sim θ [b, a] = [a.id] := by
    have hlen : ([b, a] : List KEntry).length = 2 := rfl
    unfold compactRemoveIds
    rw [hlen, hrange]
    simp only [List.foldl_cons, List.foldl_nil]
    norm_num [List.getD]
    rw [if_pos hsim', if_neg (not_lt.mpr hts.le)]
  constructor
  · unfold compactKnowledge
    rw [if_neg (by norm_num), h1]
    simp [List.filter, Ne.symm hid]
  · unfold compactKnowledge
    rw [if_neg (by norm_num), h2]
    simp [List.filter, Ne.symm hid]

/-- C5 witness: two concrete entries with similarity 1 (identical unit
vectors under the numpy kernel) and timestamps 0 < 1; threshold 1. -/
theorem compactKnowledge_pair_keeps_newer_witness :
    compactKnowledge (fun _ _ => 1) 1 [⟨"a", 0, [1]⟩, ⟨"b", 1, [1]⟩]
        = ([⟨"b", 1, [1]⟩], 1) ∧
    compactKnowledge (fun _ _ => 1) 1 [⟨"b", 1, [1]⟩, ⟨"a", 0, [1]⟩]
        = ([⟨"b", 1, [1]⟩], 1) :=
  compactKnowledge_pair_keeps_newer (fun _ _ => 1) 1 ⟨"a", 0, [1]⟩ ⟨"b", 1, [1]⟩
    (le_refl 1) (le_refl 1) (by decide) (by decide)

/-- C8: if walked file `A` has an import literal that `_resolve_import`
maps to a path normalising to file `B`'s path, then `B` appears (through
that resolved path) among `A`'s resolved imports, and `A` appears in
`B`'s imported-by list. -/
theorem depGraph_import_symmetry (D : DepParams) (files : List (String × String))
    (A B cA cB : String) (hA : (A, cA) ∈ files) (hAB : A ≠ B)
    (hlangA1 : D.extToLang A ≠ "") (hlangA2 : D.extToLang A ≠ "text")
    (ps : List String) (raw r : String)
    (hps : ps ∈ D.findImports (D.extToLang A) cA) (hraw : raw ∈ ps)
    (hres : D.resolveImport raw A (D.extToLang A) = some r)
    (hnorm : D.normpath r = D.normpath B) :
    (raw, some r) ∈ (getDependencyGraph D files A cA).imports ∧
    A ∈ (getDependencyGraph D files B cB).importedBy := by
  constructor
  · simp only [getDependencyGraph, List.mem_map]
    refine ⟨raw, ?_, by rw [hres]⟩
    simp only [List.mem_flatMap, id]
    exact ⟨ps, hps, hraw⟩
  · simp only [getDependencyGraph, List.mem_flatMap]
    refine ⟨(A, cA), hA, ?_⟩
    rw [if_pos ⟨hAB, hlangA1, hlangA2⟩]
    simp only [List.mem_map, List.mem_filter]
    refine ⟨ps, ⟨hps, ?_⟩, trivial⟩
    simp only [patternHitsTarget, List.any_eq_true]
    exact ⟨raw, hraw, by rw [hres]; simp [hnorm]⟩

/-- C8 witness: a two-file tree where `a.py` imports `b`, resolved to
`b.py`. -/
theorem depGraph_import_symmetry_witness :
    ("b", some "/r/b.py") ∈ (getDependencyGraph
        ⟨fun _ => "python", fun _ c => if c = "import b" then [["b"]] else [],
         fun raw _ _ => if raw = "b" then some "/r/b.py" else none, id⟩
        [("/r/a.py", "import b"), ("/r/b.py", "")] "/r/a.py" "import b").imports ∧
    "/r/a.py" ∈ (getDependencyGraph
        ⟨fun _ => "python", fun _ c => if c = "import b" then [["b"]] else [],
         fun raw _ _ => if raw = "b" then some "/r/b.py" else none, id⟩
        [("/r/a.py", "import b"), ("/r/b.py", "")] "/r/b.py" "").importedBy :=
  depGraph_import_symmetry _ _ "/r/a.py" "/r/b.py" "import b" "" (by decide)
    (by decide) (by decide) (by decide) ["b"] "b" "/r/b.py" (by decide) (by decide)
    (by decide) (by decide)

/-! ## Lemmas on the `index_directory` file loop -/

lemma processFile_skip (P : EngineParams) {st : LoopState} {f : String × String}
    (h : List.lookup f.1 st.hashes = some (P.hashFn f.2)) :
    processFile P st f = { st with skipped := st.skipped + 1 } := by
  unfold processFile; rw [if_pos h]

lemma processFile_go (P : EngineParams) {st : LoopState} {f : String × String}
    (h : ¬ List.lookup f.1 st.hashes = some (P.hashFn f.2)) :
    processFile P st f
      = ⟨st.pending ++ recsFor P f, (f.1, P.hashFn f.2) :: st.hashes,
         st.indexed + 1, st.skipped⟩ := by
  unfold processFile; rw [if_neg h]

/-- Keys written by the loop all come from the walked paths: the hash
lookup of an unwalked path is untouched. -/
lemma foldl_processFile_lookup_notmem (P : EngineParams) :
    ∀ (files : List (String × String)) (st : LoopState) (p : String),
      p ∉ files.map Prod.fst →
      List.lookup p (files.foldl (processFile P) st).hashes = List.lookup p st.hashes := by
  intro files
  induction files with
  | nil => intro st p _; rfl
  | cons f fs ih =>
    intro st p hp
    simp only [List.map_cons, List.mem_cons, not_or] at hp
    rw [List.foldl_cons, ih _ _ hp.2]
    unfold processFile
    split
    · rfl
    · simp only [List.lookup_cons]
      have : (p == f.1) = false := beq_false_of_ne hp.1
      rw [this]

/-- After the loop, every walked file's path maps to the hash of its
current content. -/
lemma foldl_processFile_lookup_mem (P : EngineParams) :
    ∀ (files : List (String × String)) (st : LoopState),
      (files.map Prod.fst).Nodup →
      ∀ p c, (p, c) ∈ files →
        List.lookup p (files.foldl (processFile P) st).hashes = some (P.hashFn c) := by
  intro files
  induction files with
  | nil => intro st _ p c h; simp at h
  | cons f fs ih =>
    intro st hnd p c hmem
    rw [List.map_cons, List.nodup_cons] at hnd
    rcases List.mem_cons.mp hmem with heq | hmem'
    · subst heq
      rw [List.foldl_cons, foldl_processFile_lookup_notmem P fs _ _ hnd.1]
      by_cases h : List.lookup p st.hashes = some (P.hashFn c)
      · rw [processFile_skip P h]
        exact h
      · rw [processFile_go P h]
        simp [List.lookup_cons]
    · rw [List.foldl_cons]
      exact ih _ hnd.2 p c hmem'

/-- When every walked file's stored hash already matches, the loop is a
pure skip counter. -/
lemma foldl_processFile_all_skip (P : EngineParams) :
    ∀ (files : List (String × String)) (st : LoopState),
      (∀ f ∈ files, List.lookup f.1 st.hashes = some (P.hashFn f.2)) →
      files.foldl (processFile P) st = { st with skipped := st.skipped + files.length } := by
  intro files
  induction files with
  | nil => intro st _; rfl
  | cons f fs ih =>
    intro st hall
    rw [List.foldl_cons]
    have hf := hall f (List.mem_cons_self f fs)
    rw [processFile_skip P hf]
    rw [ih { st with skipped := st.skipped + 1 }
      (fun g hg => hall g (List.mem_cons_of_mem f hg))]
    simp only [List.length_cons]
    have he : st.skipped + 1 + fs.length = st.skipped + (fs.length + 1) := by omega
    rw [he]

/-- Characterisation of `pending_chunks` after the loop, relative to the
hash dict `H` the loop started from. -/
lemma foldl_processFile_pending (P : EngineParams) :
    ∀ (files : List (String × String)) (st : LoopState) (H : List (String × String)),
      (files.map Prod.fst).Nodup →
      (∀ f ∈ files, List.lookup f.1 st.hashes = List.lookup f.1 H) →
      (files.foldl (processFile P) st).pending
        = st.pending ++ files.flatMap (fun f =>
            if List.lookup f.1 H = some (P.hashFn f.2) then [] else recsFor P f) := by
  intro files
  induction files with
  | nil => intro st H _ _; simp
  | cons f fs ih =>
    intro st H hnd hagree
    rw [List.map_cons, List.nodup_cons] at hnd
    have hf : List.lookup f.1 st.hashes = List.lookup f.1 H :=
      hagree f (List.mem_cons_self f fs)
    rw [List.foldl_cons, List.flatMap_cons]
    by_cases hskip : List.lookup f.1 st.hashes = some (P.hashFn f.2)
    · rw [processFile_skip P hskip]
      rw [ih { st with skipped := st.skipped + 1 } H hnd.2
        (fun g hg => hagree g (List.mem_cons_of_mem f hg))]
      rw [← hf, if_pos hskip]
      simp
    · rw [processFile_go P hskip]
      have hagree' : ∀ g ∈ fs,
          List.lookup g.1 ((f.1, P.hashFn f.2) :: st.hashes) = List.lookup g.1 H := by
        intro g hg
        have hne : g.1 ≠ f.1 := by
          intro he
          exact hnd.1 (he ▸ List.mem_map_of_mem Prod.fst hg)
        simp only [List.lookup_cons, beq_false_of_ne hne]
        exact hagree g (List.mem_cons_of_mem f hg)
      rw [ih ⟨st.pending ++ recsFor P f, (f.1, P.hashFn f.2) :: st.hashes,
        st.indexed + 1, st.skipped⟩ H hnd.2 hagree']
      rw [← hf, if_neg hskip]
      simp

/-- `_batch_encode` succeeds with one vector per text. -/
lemma batchEncode_length {enc : String → Option (List ℚ)} :
    ∀ {ts : List String} {vs : List (List ℚ)},
      batchEncode enc ts = some vs → vs.length = ts.length := by
  intro ts
  induction ts with
  | nil => intro vs h; cases h; rfl
  | cons t ts ih =>
    intro vs h
    unfold batchEncode at h
    match he : enc t, hr : batchEncode enc ts with
    | some v, some rs =>
      rw [he, hr] at h
      cases h
      simp [ih hr]
    | some v, none => rw [he, hr] at h; cases h
    | none, _ => rw [he] at h; cases h

lemma mergeTable_none (newRecs : List Rec) : mergeTable none newRecs = newRecs := rfl

lemma mergeTable_some (t newRecs : List Rec) :
    mergeTable (some t) newRecs
      = t.filter (fun r => r.source ∉ newRecs.map Rec.source) ++ newRecs := rfl

/-- Membership in the vector-zipping step of `index_directory`. -/
lemma mem_attachVectors :
    ∀ {pending : List Rec} {vecs : List (List ℚ)} {r : Rec},
      r ∈ attachVectors pending vecs →
      ∃ r0 ∈ pending, r = { r0 with vector := r.vector } := by
  intro pending
  induction pending with
  | nil => intro vecs r h; simp [attachVectors] at h
  | cons p ps ih =>
    intro vecs r h
    cases vecs with
    | nil => simp [attachVectors] at h
    | cons v vs =>
      rcases List.mem_cons.mp h with heq | hmem
      · exact ⟨p, List.mem_cons_self _ _, by rw [heq]⟩
      · obtain ⟨r0, hr0, he⟩ := ih hmem
        exact ⟨r0, List.mem_cons_of_mem _ hr0, he⟩

/-- Sources are untouched by the vector-zipping step (for equal lengths,
the zipped list has exactly the pending sources). -/
lemma map_source_attachVectors :
    ∀ {pending : List Rec} {vecs : List (List ℚ)},
      vecs.length = pending.length →
      (attachVectors pending vecs).map Rec.source = pending.map Rec.source := by
  intro pending
  induction pending with
  | nil => intro vecs _; simp [attachVectors]
  | cons p ps ih =>
    intro vecs hlen
    cases vecs with
    | nil => simp at hlen
    | cons v vs =>
      simp only [attachVectors, List.zipWith_cons_cons, List.map_cons] at ih ⊢
      rw [ih (by simpa using hlen)]

/-- Every record a file contributes has that file as its source. -/
lemma recsFor_source (P : EngineParams) (f : String × String) :
    ∀ r ∈ recsFor P f, r.source = f.1 := by
  intro r hr
  obtain ⟨c, _, he⟩ := List.mem_map.mp hr
  rw [← he]
  rfl

/-- In a list with duplicate-free keys, a key determines its value. -/
lemma nodup_keys_eq {files : List (String × String)}
    (hnd : (files.map Prod.fst).Nodup) {p c c' : String}
    (h1 : (p, c) ∈ files) (h2 : (p, c') ∈ files) : c = c' := by
  induction files with
  | nil => simp at h1
  | cons f fs ih =>
    rw [List.map_cons, List.nodup_cons] at hnd
    rcases List.mem_cons.mp h1 with he1 | hm1 <;>
      rcases List.mem_cons.mp h2 with he2 | hm2
    · simpa using he1.trans he2.symm
    · exfalso
      apply hnd.1
      rw [← he1]
      simpa using List.mem_map_of_mem Prod.fst hm2
    · exfalso
      apply hnd.1
      rw [← he2]
      simpa using List.mem_map_of_mem Prod.fst hm1
    · exact ih hnd.2 hm1 hm2

/-- A successful `index_directory` run leaves the loop's hash dict both in
memory and on disk. -/
lemma indexDirectory_success_state (P : EngineParams) (files : List (String × String))
    (s s1 : EngineState) (stats : IndexStats)
    (h : indexDirectory P files s = (s1, some stats)) :
    s1.fileHashes = (files.foldl (processFile P) ⟨[], s.fileHashes, 0, 0⟩).hashes ∧
    s1.diskHashes = s1.fileHashes := by
  unfold indexDirectory at h
  set st := files.foldl (processFile P) ⟨[], s.fileHashes, 0, 0⟩ with hst
  by_cases hp : st.pending = []
  · rw [if_pos hp] at h
    obtain ⟨h1, -⟩ := Prod.mk.injEq .. |>.mp h
    rw [← h1]
    exact ⟨rfl, rfl⟩
  · rw [if_neg hp] at h
    cases hb : batchEncode P.encode (st.pending.map (·.content)) with
    | none => rw [hb] at h; simp at h
    | some vecs =>
      rw [hb] at h
      obtain ⟨h1, -⟩ := Prod.mk.injEq .. |>.mp h
      rw [← h1]
      exact ⟨rfl, rfl⟩

/-- C2 (amended): when the embedding provider raises during
`index_directory`, the exception propagates with the vector table and the
on-disk hash map untouched — but the in-memory hash map has already
recorded the new hashes of every walked file, so a retry on the same
engine instance skips the failed files; only a caller that reloads the
on-disk map re-processes them. -/
theorem indexDirectory_encode_failure_state (P : EngineParams)
    (files : List (String × String)) (s s' : EngineState)
    (hrun : indexDirectory P files s = (s', none)) :
    s'.table = s.table ∧ s'.diskHashes = s.diskHashes ∧
    ((files.map Prod.fst).Nodup → ∀ p c, (p, c) ∈ files →
      List.lookup p s'.fileHashes = some (P.hashFn c)) := by
  unfold indexDirectory at hrun
  set st := files.foldl (processFile P) ⟨[], s.fileHashes, 0, 0⟩ with hst
  by_cases hp : st.pending = []
  · rw [if_pos hp] at hrun
    simp at hrun
  · rw [if_neg hp] at hrun
    cases hb : batchEncode P.encode (st.pending.map (·.content)) with
    | some vecs => rw [hb] at hrun; simp at hrun
    | none =>
      rw [hb] at hrun
      obtain ⟨h1, -⟩ := Prod.mk.injEq .. |>.mp hrun
      rw [← h1]
      refine ⟨rfl, rfl, fun hnd p c hmem => ?_⟩
      exact foldl_processFile_lookup_mem P files ⟨[], s.fileHashes, 0, 0⟩ hnd p c hmem

/-- C2 counterexample data: a provider that always raises, over one
changed text file. -/
def cexFailParams : EngineParams :=
  ⟨fun _ => "text", id, fun content _ => chunkByLinesFallback content, fun _ => none⟩

/-- C2 counterexample: the aborted run commits nothing to the table or
disk, but the in-memory hash map does reflect the failed batch's file —
so the immediate retry on the same instance reports the file as
`skipped_unchanged`, not re-processed, contradicting the claim. -/
theorem indexDirectory_encode_failure_memory_cex :
    (indexDirectory cexFailParams [("a.txt", "abcdefghijkl")] ⟨none, [], []⟩).2 = none ∧
    (indexDirectory cexFailParams [("a.txt", "abcdefghijkl")] ⟨none, [], []⟩).1.table = none ∧
    (indexDirectory cexFailParams [("a.txt", "abcdefghijkl")] ⟨none, [], []⟩).1.diskHashes = [] ∧
    List.lookup "a.txt"
        (indexDirectory cexFailParams [("a.txt", "abcdefghijkl")] ⟨none, [], []⟩).1.fileHashes
      = some "abcdefghijkl" ∧
    (indexDirectory cexFailParams [("a.txt", "abcdefghijkl")]
        (indexDirectory cexFailParams [("a.txt", "abcdefghijkl")] ⟨none, [], []⟩).1).2
      = some ⟨1, 0, 1, 0⟩ := by
  decide

/-- C2 witness for the amended theorem at the counterexample input. -/
theorem indexDirectory_encode_failure_state_witness :
    (indexDirectory cexFailParams [("a.txt", "abcdefghijkl")] ⟨none, [], []⟩).1.table = none ∧
    (indexDirectory cexFailParams [("a.txt", "abcdefghijkl")] ⟨none, [], []⟩).1.diskHashes = [] ∧
    List.lookup "a.txt"
        (indexDirectory cexFailParams [("a.txt", "abcdefghijkl")] ⟨none, [], []⟩).1.fileHashes
      = some "abcdefghijkl" := by
  have h := indexDirectory_encode_failure_state cexFailParams
    [("a.txt", "abcdefghijkl")] ⟨none, [], []⟩
    (indexDirectory cexFailParams [("a.txt", "abcdefghijkl")] ⟨none, [], []⟩).1
    (by decide)
  exact ⟨h.1, h.2.1, h.2.2 (by decide) "a.txt" "abcdefghijkl" (by decide)⟩

/-- C6: running `index_directory` again over unchanged files is a no-op:
the engine state (table included) is exactly the state after the first
successful run, and the stats report `indexed = 0` and
`skipped_unchanged` equal to the number of walked files. -/
theorem indexDirectory_second_run_noop (P : EngineParams)
    (files : List (String × String)) (s s1 : EngineState) (stats1 : IndexStats)
    (hnd : (files.map Prod.fst).Nodup)
    (h1 : indexDirectory P files s = (s1, some stats1)) :
    indexDirectory P files s1 = (s1, some ⟨files.length, 0, files.length, 0⟩) := by
  obtain ⟨hmem, hdisk⟩ := indexDirectory_success_state P files s s1 stats1 h1
  have hhash : ∀ f ∈ files, List.lookup f.1 s1.fileHashes = some (P.hashFn f.2) := by
    intro f hf
    rw [hmem]
    exact foldl_processFile_lookup_mem P files _ hnd f.1 f.2 hf
  unfold indexDirectory
  rw [foldl_processFile_all_skip P files ⟨[], s1.fileHashes, 0, 0⟩ hhash]
  simp only [if_pos rfl]
  rw [Prod.mk.injEq]
  constructor
  · cases s1 with
    | mk table fh dh =>
      have hd : dh = fh := hdisk
      subst hd
      rfl
  · simp [Nat.zero_add]

/-- C6 witness: a concrete engine indexed twice over the same one-file
directory; the second run is a no-op reporting `indexed = 0`,
`skipped_unchanged = 1`. -/
theorem indexDirectory_second_run_noop_witness :
    indexDirectory ⟨fun _ => "text", id, fun content _ => chunkByLinesFallback content,
        fun _ => some [1]⟩ [("a.txt", "abcdefghijkl")]
      ⟨some [⟨"a.txt:1-1", "abcdefghijkl", "a.txt", 1, 1, "text", [1]⟩],
       [("a.txt", "abcdefghijkl")], [("a.txt", "abcdefghijkl")]⟩
    = (⟨some [⟨"a.txt:1-1", "abcdefghijkl", "a.txt", 1, 1, "text", [1]⟩],
        [("a.txt", "abcdefghijkl")], [("a.txt", "abcdefghijkl")]⟩,
       some ⟨1, 0, 1, 0⟩) :=
  indexDirectory_second_run_noop
    ⟨fun _ => "text", id, fun content _ => chunkByLinesFallback content, fun _ => some [1]⟩
    [("a.txt", "abcdefghijkl")] ⟨none, [], []⟩
    ⟨some [⟨"a.txt:1-1", "abcdefghijkl", "a.txt", 1, 1, "text", [1]⟩],
     [("a.txt", "abcdefghijkl")], [("a.txt", "abcdefghijkl")]⟩
    ⟨1, 1, 0, 1⟩ (by decide) (by decide)

/-- C1 (amended): after a successful `index_directory` run, a changed file
that contributed at least one chunk surviving the 10-character noise
filter has only records produced from its new content in the table, and
the records of unchanged files are untouched.  (A changed file all of
whose chunks are filtered keeps its stale records, see the
counterexample.) -/
theorem indexDirectory_replaces_changed_sources (P : EngineParams)
    (files : List (String × String)) (s s' : EngineState) (stats : IndexStats)
    (hnd : (files.map Prod.fst).Nodup)
    (hrun : indexDirectory P files s = (s', some stats))
    (p c : String) (hmem : (p, c) ∈ files)
    (hch : List.lookup p s.fileHashes ≠ some (P.hashFn c))
    (hnz : recsFor P (p, c) ≠ []) :
    (∀ r ∈ tableRecs s', r.source = p →
       ∃ r0 ∈ recsFor P (p, c), r = { r0 with vector := r.vector }) ∧
    (∀ q cq, (q, cq) ∈ files → List.lookup q s.fileHashes = some (P.hashFn cq) →
       (tableRecs s').filter (fun r => r.source == q)
         = (tableRecs s).filter (fun r => r.source == q)) := by
  unfold indexDirectory at hrun
  set st := files.foldl (processFile P) ⟨[], s.fileHashes, 0, 0⟩ with hst
  have hpend : st.pending = files.flatMap (fun f =>
      if List.lookup f.1 s.fileHashes = some (P.hashFn f.2) then [] else recsFor P f) := by
    have h := foldl_processFile_pending P files ⟨[], s.fileHashes, 0, 0⟩ s.fileHashes hnd
      (fun _ _ => rfl)
    simpa using h
  have hsub : ∀ r ∈ recsFor P (p, c), r ∈ st.pending := by
    intro r hr
    rw [hpend]
    exact List.mem_flatMap.mpr ⟨(p, c), hmem, by rw [if_neg hch]; exact hr⟩
  -- each pending record stems from a file whose stored hash mismatched
  have hpend_src : ∀ r0 ∈ st.pending, ∃ g ∈ files,
      ¬ List.lookup g.1 s.fileHashes = some (P.hashFn g.2) ∧ r0 ∈ recsFor P g := by
    intro r0 h0
    rw [hpend] at h0
    obtain ⟨g, hg, hr0⟩ := List.mem_flatMap.mp h0
    by_cases hcond : List.lookup g.1 s.fileHashes = some (P.hashFn g.2)
    · rw [if_pos hcond] at hr0; simp at hr0
    · rw [if_neg hcond] at hr0; exact ⟨g, hg, hcond, hr0⟩
  have hpne : st.pending ≠ [] := by
    obtain ⟨r, hr⟩ := List.exists_mem_of_ne_nil _ hnz
    intro h0
    rw [h0] at hsub
    exact absurd (hsub r hr) (List.not_mem_nil r)
  rw [if_neg hpne] at hrun
  cases hb : batchEncode P.encode (st.pending.map (·.content)) with
  | none => rw [hb] at hrun; simp at hrun
  | some vecs =>
    rw [hb] at hrun
    obtain ⟨h1, -⟩ := Prod.mk.injEq .. |>.mp hrun
    have hvlen : vecs.length = st.pending.length := by
      have := batchEncode_length hb
      simpa using this
    have hsrc_eq : (attachVectors st.pending vecs).map Rec.source
        = st.pending.map Rec.source := map_source_attachVectors hvlen
    -- `p` is among the stale sources
    have hpstale : p ∈ (attachVectors st.pending vecs).map Rec.source := by
      rw [hsrc_eq]
      obtain ⟨r, hr⟩ := List.exists_mem_of_ne_nil _ hnz
      exact List.mem_map.mpr ⟨r, hsub r hr, recsFor_source P (p, c) r hr⟩
    -- no unchanged file is among the stale sources
    have hqfresh : ∀ q cq, (q, cq) ∈ files →
        List.lookup q s.fileHashes = some (P.hashFn cq) →
        q ∉ (attachVectors st.pending vecs).map Rec.source := by
      intro q cq hqmem hqhash hq
      rw [hsrc_eq] at hq
      obtain ⟨r0, hr0, hsrc⟩ := List.mem_map.mp hq
      obtain ⟨g, hg, hgcond, hgrec⟩ := hpend_src r0 hr0
      have hgq : g.1 = q := by rw [← hsrc]; exact (recsFor_source P g r0 hgrec).symm
      have hgcq : g.2 = cq := by
        apply nodup_keys_eq hnd _ hqmem
        rw [← hgq]
        exact hg
      rw [← hgq, ← hgcq] at hqhash
      exact hgcond hqhash
    have htabs' : tableRecs s' = mergeTable s.table (attachVectors st.pending vecs) := by
      rw [← h1]
      rfl
    constructor
    · -- every table record with source p is freshly produced from c
      intro r hrmem hrsrc
      rw [htabs'] at hrmem
      have hrnew : r ∈ attachVectors st.pending vecs := by
        cases htab : s.table with
        | none => rw [htab, mergeTable_none] at hrmem; exact hrmem
        | some t =>
          rw [htab, mergeTable_some] at hrmem
          rcases List.mem_append.mp hrmem with hold | hnew
          · exfalso
            have hnot := (List.mem_filter.mp hold).2
            rw [hrsrc] at hnot
            simp only [decide_not, Bool.not_eq_true', decide_eq_false_iff_not] at hnot
            exact hnot hpstale
          · exact hnew
      obtain ⟨r0, hr0, he⟩ := mem_attachVectors hrnew
      obtain ⟨g, hg, hgcond, hgrec⟩ := hpend_src r0 hr0
      have hr0src : r0.source = r.source := by rw [he]
      have hgp : g.1 = p := by
        rw [← hrsrc, ← hr0src]
        exact (recsFor_source P g r0 hgrec).symm
      have hgc : g.2 = c := by
        apply nodup_keys_eq hnd _ hmem
        rw [← hgp]
        exact hg
      refine ⟨r0, ?_, he⟩
      have hgpc : g = (p, c) := Prod.ext hgp hgc
      rw [← hgpc]
      exact hgrec
    · -- unchanged files keep exactly their old records
      intro q cq hqmem hqhash
      have hq := hqfresh q cq hqmem hqhash
      have hnewnil : (attachVectors st.pending vecs).filter (fun r => r.source == q) = [] := by
        rw [List.filter_eq_nil_iff]
        intro r hr hrq
        apply hq
        exact List.mem_map.mpr ⟨r, hr, by simpa using hrq⟩
      rw [htabs']
      cases htab : s.table with
      | none =>
        rw [mergeTable_none, hnewnil]
        unfold tableRecs
        rw [htab]
        rfl
      | some t =>
        rw [mergeTable_some, List.filter_append, hnewnil, List.append_nil,
          List.filter_filter]
        unfold tableRecs
        rw [htab]
        apply List.filter_congr
        intro r _
        by_cases hrq : r.source = q
        · have hbq : (r.source == q) = true := by simpa using hrq
          rw [hbq]
          simp only [Bool.true_and, Bool.and_true, decide_not, Bool.not_eq_true',
            decide_eq_false_iff_not, decide_eq_true_eq]
          rw [hrq]
          exact hq
        · have hbq : (r.source == q) = false := by simpa using hrq
          rw [hbq]
          simp

/-- Engine collaborators for the C1 scenarios: text files chunked by the
fallback (the genuine `chunk_by_functions` path for languages without a
tree-sitter grammar), an identity hash and a constant encoder. -/
def cexOkParams : EngineParams :=
  ⟨fun _ => "text", id, fun content _ => chunkByLinesFallback content, fun _ => some [1]⟩

/-- C1 witness: one changed file over an empty state; its table records
all stem from the new content, and unchanged files (vacuously) keep their
records. -/
theorem indexDirectory_replaces_changed_sources_witness :
    (∀ r ∈ tableRecs ⟨some [⟨"a.txt:1-1", "abcdefghijkl", "a.txt", 1, 1, "text", [1]⟩],
        [("a.txt", "abcdefghijkl")], [("a.txt", "abcdefghijkl")]⟩,
      r.source = "a.txt" →
        ∃ r0 ∈ recsFor cexOkParams ("a.txt", "abcdefghijkl"),
          r = { r0 with vector := r.vector }) ∧
    (∀ q cq, (q, cq) ∈ [("a.txt", "abcdefghijkl")] →
      List.lookup q ([] : List (String × String)) = some (cexOkParams.hashFn cq) →
      (tableRecs ⟨some [⟨"a.txt:1-1", "abcdefghijkl", "a.txt", 1, 1, "text", [1]⟩],
          [("a.txt", "abcdefghijkl")], [("a.txt", "abcdefghijkl")]⟩).filter
          (fun r => r.source == q)
        = (tableRecs ⟨none, [], []⟩).filter (fun r => r.source == q)) :=
  indexDirectory_replaces_changed_sources cexOkParams [("a.txt", "abcdefghijkl")]
    ⟨none, [], []⟩
    ⟨some [⟨"a.txt:1-1", "abcdefghijkl", "a.txt", 1, 1, "text", [1]⟩],
     [("a.txt", "abcdefghijkl")], [("a.txt", "abcdefghijkl")]⟩
    ⟨1, 1, 0, 1⟩ (by decide) (by decide) "a.txt" "abcdefghijkl" (by decide) (by decide)
    (by decide)

/-- C1 counterexample: re-indexing `a.txt` after its content shrank to
`"x"` (every chunk trimmed below 10 characters) reports the file as
indexed and updates its hash, yet the record built from the old content
`"abcdefghijkl"` is still in the table — a stale record survives the
rebuild, refuting the claim for this changed file. -/
theorem indexDirectory_stale_record_survives_cex :
    (indexDirectory cexOkParams [("a.txt", "x")]
        (indexDirectory cexOkParams [("a.txt", "abcdefghijkl")] ⟨none, [], []⟩).1).2
      = some ⟨1, 1, 0, 0⟩ ∧
    (indexDirectory cexOkParams [("a.txt", "x")]
        (indexDirectory cexOkParams [("a.txt", "abcdefghijkl")] ⟨none, [], []⟩).1).1.table
      = some [⟨"a.txt:1-1", "abcdefghijkl", "a.txt", 1, 1, "text", [1]⟩] ∧
    List.lookup "a.txt"
        (indexDirectory cexOkParams [("a.txt", "x")]
          (indexDirectory cexOkParams [("a.txt", "abcdefghijkl")] ⟨none, [], []⟩).1).1.fileHashes
      = some "x" := by
  decide

/-! ## Lemmas on the gap scan of `chunk_by_functions` -/

lemma forall_of_forall_dropWhile {p : Char → Bool} :
    ∀ {l : List Char}, (∀ c ∈ l.dropWhile p, p c) → ∀ c ∈ l, p c := by
  intro l
  induction l with
  | nil => intro _ c hc; simp at hc
  | cons x xs ih =>
    intro h c hc
    by_cases hx : p x
    · rw [List.dropWhile_cons_of_pos hx] at h
      rcases List.mem_cons.mp hc with rfl | hm
      · exact hx
      · exact ih h c hm
    · rw [List.dropWhile_cons_of_neg hx] at h
      exact h c hc

lemma pyStrip_empty_iff (s : String) :
    pyStrip s = "" ↔ ∀ c ∈ s.data, c.isWhitespace := by
  unfold pyStrip
  constructor
  · intro h
    have hnil : ((s.data.dropWhile Char.isWhitespace).reverse.dropWhile
        Char.isWhitespace).reverse = [] := congrArg String.data h
    rw [List.reverse_eq_nil_iff, List.dropWhile_eq_nil_iff] at hnil
    apply forall_of_forall_dropWhile
    intro c hc
    exact hnil c (List.mem_reverse.mpr hc)
  · intro h
    have h1 : s.data.dropWhile Char.isWhitespace = [] :=
      List.dropWhile_eq_nil_iff.mpr h
    rw [h1]
    rfl

lemma mem_data_pyJoinLines :
    ∀ {l : List String} {x : String}, x ∈ l → ∀ {c : Char}, c ∈ x.data →
      c ∈ (pyJoinLines l).data := by
  intro l
  induction l with
  | nil => intro x hx; simp at hx
  | cons y ys ih =>
    intro x hx c hc
    cases ys with
    | nil =>
      rcases List.mem_cons.mp hx with rfl | hm
      · exact hc
      · simp at hm
    | cons z zs =>
      show c ∈ (y ++ "\n" ++ pyJoinLines (z :: zs)).data
      rw [String.data_append, String.data_append]
      rcases List.mem_cons.mp hx with rfl | hm
      · exact List.mem_append_left _ (List.mem_append_left _ hc)
      · exact List.mem_append_right _ (ih hm hc)

/-- A line of the run `[g, b]` (with `1 ≤ g`) is an element of the gap
slice. -/
lemma getD_mem_slice {lines : List String} {g b j : ℕ} (hg1 : 1 ≤ g)
    (hg : g ≤ j) (hb : j ≤ b) (hn : b ≤ lines.length) :
    lines.getD (j - 1) "" ∈ (lines.drop (g - 1)).take (b - g + 1) := by
  have hj : j - 1 < lines.length := by omega
  have e1 : (lines.drop (g - 1))[j - g]? = some lines[j - 1] := by
    rw [List.getElem?_drop]
    have e : g - 1 + (j - g) = j - 1 := by omega
    rw [e, List.getElem?_eq_getElem hj]
  have e2 : ((lines.drop (g - 1)).take (b - g + 1))[j - g]? = some lines[j - 1] := by
    rw [List.getElem?_take, if_pos (show j - g < b - g + 1 by omega)]
    exact e1
  have hgd : lines.getD (j - 1) "" = lines[j - 1] := by
    rw [List.getD_eq_getElem?_getD, List.getElem?_eq_getElem hj]
    rfl
  rw [hgd]
  exact List.getElem?_mem e2

/-- A run containing a non-blank line is emitted as one gap chunk. -/
lemma emitGap_of_nonblank {lines : List String} {g b j : ℕ} (hg1 : 1 ≤ g)
    (hg : g ≤ j) (hb : j ≤ b) (hn : b ≤ lines.length)
    (hnb : ¬ ∀ ch ∈ (lines.getD (j - 1) "").data, ch.isWhitespace) :
    emitGap lines g b = [⟨g, b, gapText lines g b, "", "gap"⟩] := by
  unfold emitGap
  rw [if_pos]
  intro hstrip
  apply hnb
  intro ch hch
  have hall := (pyStrip_empty_iff (gapText lines g b)).mp hstrip
  apply hall
  exact mem_data_pyJoinLines (getD_mem_slice hg1 hg hb hn) hch

/-- Whatever `emitGap` returns is the single chunk of its run, with
non-blank content. -/
lemma emitGap_mem {lines : List String} {g b : ℕ} {c : Chunk}
    (h : c ∈ emitGap lines g b) :
    c = ⟨g, b, gapText lines g b, "", "gap"⟩ ∧ pyStrip c.content ≠ "" := by
  unfold emitGap at h
  split at h
  · next hne =>
    rcases List.mem_singleton.mp h with rfl
    exact ⟨rfl, hne⟩
  · simp at h

lemma gapGo_nil_none {lines : List String} {covered : Finset ℕ} :
    gapGo lines covered [] none = [] := rfl

lemma gapGo_nil_some {lines : List String} {covered : Finset ℕ} {g : ℕ} :
    gapGo lines covered [] (some g) = emitGap lines g lines.length := rfl

lemma gapGo_cons_covered {lines : List String} {covered : Finset ℕ}
    {i : ℕ} {rest : List ℕ} {gs : Option ℕ} (hc : i ∈ covered) :
    gapGo lines covered (i :: rest) gs
      = (match gs with
         | some g => emitGap lines g (i - 1)
         | none => []) ++ gapGo lines covered rest none := by
  cases gs with
  | none => simp only [gapGo, if_pos hc]
  | some g => simp only [gapGo, if_pos hc]

lemma gapGo_cons_uncovered_some {lines : List String} {covered : Finset ℕ}
    {i : ℕ} {rest : List ℕ} {g : ℕ} (hc : i ∉ covered) :
    gapGo lines covered (i :: rest) (some g) = gapGo lines covered rest (some g) := by
  simp only [gapGo, if_neg hc]

lemma gapGo_cons_uncovered_none {lines : List String} {covered : Finset ℕ}
    {i : ℕ} {rest : List ℕ} (hc : i ∉ covered) :
    gapGo lines covered (i :: rest) none = gapGo lines covered rest (some i) := by
  simp only [gapGo, if_neg hc]

/-- Completeness of the gap scan: an uncovered, in-range, non-blank line
ends up inside some emitted gap chunk. -/
lemma gapGo_complete {lines : List String} {covered : Finset ℕ} :
    ∀ (k i : ℕ) (gs : Option ℕ) (j : ℕ),
      i + k = lines.length + 1 →
      1 ≤ i →
      (∀ g, gs = some g → 1 ≤ g ∧ g < i) →
      j ∉ covered → 1 ≤ j → j ≤ lines.length →
      ¬ (∀ ch ∈ (lines.getD (j - 1) "").data, ch.isWhitespace) →
      ((i ≤ j) ∨ (∃ g, gs = some g ∧ g ≤ j ∧ j < i)) →
      ∃ c ∈ gapGo lines covered (List.range' i k) gs,
        c.startLine ≤ j ∧ j ≤ c.endLine := by
  intro k
  induction k with
  | zero =>
    intro i gs j hik hi hgs hj h1 hn hnb hcase
    rcases hcase with hij | ⟨g, rfl, hgj, hji⟩
    · omega
    · obtain ⟨hg1, -⟩ := hgs g rfl
      rw [show List.range' i 0 = [] from rfl, gapGo_nil_some,
        emitGap_of_nonblank hg1 hgj hn (le_refl _) hnb]
      exact ⟨_, List.mem_singleton_self _, hgj, hn⟩
  | succ k ih =>
    intro i gs j hik hi hgs hj h1 hn hnb hcase
    rw [List.range'_succ i k 1]
    by_cases hc : i ∈ covered
    · rw [gapGo_cons_covered hc]
      rcases hcase with hij | ⟨g, rfl, hgj, hji⟩
      · have hij' : i < j := lt_of_le_of_ne hij (fun he => hj (he ▸ hc))
        obtain ⟨c, hcm, hcj⟩ := ih (i + 1) none j (by omega) (by omega)
          (by simp) hj h1 hn hnb (Or.inl (by omega))
        exact ⟨c, List.mem_append_right _ hcm, hcj⟩
      · obtain ⟨hg1, -⟩ := hgs g rfl
        have hbn : j ≤ i - 1 := by omega
        have hin : i - 1 ≤ lines.length := by omega
        rw [show (match (some g : Option ℕ) with
            | some g => emitGap lines g (i - 1)
            | none => ([] : List Chunk)) = emitGap lines g (i - 1) from rfl,
          emitGap_of_nonblank hg1 hgj hbn hin hnb]
        exact ⟨_, List.mem_append_left _ (List.mem_singleton_self _), hgj, hbn⟩
    · cases gs with
      | some g =>
        rw [gapGo_cons_uncovered_some hc]
        obtain ⟨hg1, hgi⟩ := hgs g rfl
        have hinv : ∀ g', some g = some g' → 1 ≤ g' ∧ g' < i + 1 := by
          intro g' hg'
          cases hg'
          omega
        rcases hcase with hij | ⟨g', he, hgj, hji⟩
        · by_cases heq : i = j
          · exact ih (i + 1) (some g) j (by omega) (by omega) hinv hj h1 hn hnb
              (Or.inr ⟨g, rfl, by omega, by omega⟩)
          · exact ih (i + 1) (some g) j (by omega) (by omega) hinv hj h1 hn hnb
              (Or.inl (by omega))
        · cases he
          exact ih (i + 1) (some g) j (by omega) (by omega) hinv hj h1 hn hnb
            (Or.inr ⟨g, rfl, hgj, by omega⟩)
      | none =>
        rw [gapGo_cons_uncovered_none hc]
        have hinv : ∀ g', some i = some g' → 1 ≤ g' ∧ g' < i + 1 := by
          intro g' hg'
          cases hg'
          omega
        rcases hcase with hij | ⟨g', he, -, -⟩
        · by_cases heq : i = j
          · exact ih (i + 1) (some i) j (by omega) (by omega) hinv hj h1 hn hnb
              (Or.inr ⟨i, rfl, by omega, by omega⟩)
          · exact ih (i + 1) (some i) j (by omega) (by omega) hinv hj h1 hn hnb
              (Or.inl (by omega))
        · cases he

/-- Soundness of the gap scan: every emitted chunk is a `"gap"` chunk for
an in-range, fully uncovered run, carrying that run's text, which is
non-blank. -/
lemma gapGo_sound {lines : List String} {covered : Finset ℕ} :
    ∀ (k i : ℕ) (gs : Option ℕ),
      i + k = lines.length + 1 →
      1 ≤ i →
      (∀ g, gs = some g →
        1 ≤ g ∧ g < i ∧ ∀ t, g ≤ t → t < i → t ∉ covered) →
      ∀ c ∈ gapGo lines covered (List.range' i k) gs,
        c.kind = "gap" ∧ c.name = "" ∧ 1 ≤ c.startLine ∧
        c.startLine ≤ c.endLine ∧ c.endLine ≤ lines.length ∧
        c.content = gapText lines c.startLine c.endLine ∧
        pyStrip c.content ≠ "" ∧
        (∀ t, c.startLine ≤ t → t ≤ c.endLine → t ∉ covered) := by
  intro k
  induction k with
  | zero =>
    intro i gs hik hi hgs c hcm
    cases gs with
    | none =>
      rw [show List.range' i 0 = [] from rfl, gapGo_nil_none] at hcm
      simp at hcm
    | some g =>
      rw [show List.range' i 0 = [] from rfl, gapGo_nil_some] at hcm
      obtain ⟨rfl, hnb⟩ := emitGap_mem hcm
      obtain ⟨hg1, hgi, hrun⟩ := hgs g rfl
      refine ⟨rfl, rfl, hg1, show g ≤ lines.length by omega, le_refl _, rfl, hnb,
        fun t ht1 ht2 => ?_⟩
      have ht1' : g ≤ t := ht1
      have ht2' : t ≤ lines.length := ht2
      exact hrun t ht1' (by omega)
  | succ k ih =>
    intro i gs hik hi hgs c hcm
    rw [List.range'_succ i k 1] at hcm
    by_cases hc : i ∈ covered
    · rw [gapGo_cons_covered hc] at hcm
      rcases List.mem_append.mp hcm with hemit | hrest
      · cases gs with
        | none => simp at hemit
        | some g =>
          obtain ⟨rfl, hnb⟩ := emitGap_mem hemit
          obtain ⟨hg1, hgi, hrun⟩ := hgs g rfl
          refine ⟨rfl, rfl, hg1, show g ≤ i - 1 by omega,
            show i - 1 ≤ lines.length by omega, rfl, hnb, fun t ht1 ht2 => ?_⟩
          have ht1' : g ≤ t := ht1
          have ht2' : t ≤ i - 1 := ht2
          exact hrun t ht1' (by omega)
      · exact ih (i + 1) none (by omega) (by omega) (by simp) c hrest
    · cases gs with
      | some g =>
        rw [gapGo_cons_uncovered_some hc] at hcm
        refine ih (i + 1) (some g) (by omega) (by omega) ?_ c hcm
        intro g' hg'
        cases hg'
        obtain ⟨hg1, hgi, hrun⟩ := hgs g rfl
        refine ⟨hg1, by omega, fun t ht1 ht2 => ?_⟩
        rcases Nat.lt_or_ge t i with hti | hti
        · exact hrun t ht1 hti
        · have ht : t = i := by omega
          rw [ht]
          exact hc
      | none =>
        rw [gapGo_cons_uncovered_none hc] at hcm
        refine ih (i + 1) (some i) (by omega) (by omega) ?_ c hcm
        intro g' hg'
        cases hg'
        refine ⟨hi, by omega, fun t ht1 ht2 => ?_⟩
        have ht : t = i := by omega
        rw [ht]
        exact hc

/-- Emitted gap chunks start no earlier than the current run/scan
position and are strictly ordered (hence pairwise disjoint). -/
lemma gapGo_lb_pairwise {lines : List String} {covered : Finset ℕ} :
    ∀ (k i : ℕ) (gs : Option ℕ),
      (∀ g, gs = some g → g ≤ i) →
      (∀ c ∈ gapGo lines covered (List.range' i k) gs,
        (match gs with | some g => g | none => i) ≤ c.startLine) ∧
      List.Pairwise (fun a b => a.endLine < b.startLine)
        (gapGo lines covered (List.range' i k) gs) := by
  intro k
  induction k with
  | zero =>
    intro i gs hgs
    cases gs with
    | none =>
      rw [show List.range' i 0 = [] from rfl, gapGo_nil_none]
      exact ⟨by simp, by simp⟩
    | some g =>
      rw [show List.range' i 0 = [] from rfl, gapGo_nil_some]
      constructor
      · intro c hcm
        obtain ⟨rfl, -⟩ := emitGap_mem hcm
        exact le_refl g
      · unfold emitGap
        split
        · simp
        · simp
  | succ k ih =>
    intro i gs hgs
    rw [List.range'_succ i k 1]
    by_cases hc : i ∈ covered
    · rw [gapGo_cons_covered hc]
      have hrest := ih (i + 1) none (by simp)
      constructor
      · intro c hcm
        rcases List.mem_append.mp hcm with hemit | hrestm
        · cases gs with
          | none => simp at hemit
          | some g =>
            obtain ⟨rfl, -⟩ := emitGap_mem hemit
            exact le_refl g
        · have hlb : i + 1 ≤ c.startLine := hrest.1 c hrestm
          cases gs with
          | none => show i ≤ c.startLine; omega
          | some g =>
            have hgi := hgs g rfl
            show g ≤ c.startLine
            omega
      · rw [List.pairwise_append]
        refine ⟨?_, hrest.2, ?_⟩
        · cases gs with
          | none => simp
          | some g =>
            show List.Pairwise _ (emitGap lines g (i - 1))
            unfold emitGap
            split <;> simp
        · intro a ha b hb
          cases gs with
          | none => simp at ha
          | some g =>
            obtain ⟨rfl, -⟩ := emitGap_mem ha
            have hlb : i + 1 ≤ b.startLine := hrest.1 b hb
            show i - 1 < b.startLine
            omega
    · cases gs with
      | some g =>
        rw [gapGo_cons_uncovered_some hc]
        have h := ih (i + 1) (some g)
          (fun g' hg' => by cases hg'; have := hgs g rfl; omega)
        exact ⟨fun c hcm => h.1 c hcm, h.2⟩
      | none =>
        rw [gapGo_cons_uncovered_none hc]
        have h := ih (i + 1) (some i) (fun g' hg' => by cases hg'; omega)
        constructor
        · intro c hcm
          have hlb : i ≤ c.startLine := h.1 c hcm
          show i ≤ c.startLine
          exact hlb
        · exact h.2

/-- The `covered` set built by the traversal is exactly the union of the
emitted definition chunks' line ranges. -/
lemma visit_covered_iff (ft tc : List String) :
    (∀ n : TSNode, ∀ j : ℕ, j ∈ (visit ft tc n).2 ↔
      ∃ c ∈ (visit ft tc n).1, c.startLine ≤ j ∧ j ≤ c.endLine) ∧
    (∀ l : List TSNode, ∀ j : ℕ, j ∈ (visitList ft tc l).2 ↔
      ∃ c ∈ (visitList ft tc l).1, c.startLine ≤ j ∧ j ≤ c.endLine) := by
  refine visit.mutual_induct ft tc
    (fun n => ∀ j : ℕ, j ∈ (visit ft tc n).2 ↔
      ∃ c ∈ (visit ft tc n).1, c.startLine ≤ j ∧ j ≤ c.endLine)
    (fun l => ∀ j : ℕ, j ∈ (visitList ft tc l).2 ↔
      ∃ c ∈ (visitList ft tc l).1, c.startLine ≤ j ∧ j ≤ c.endLine)
    ?_ ?_ ?_ ?_ ?_
  · intro ty sr er tx cs hft hbig ih j
    rw [visit, if_pos hft, if_pos hbig]
    exact ih j
  · intro ty sr er tx cs hft hbig j
    rw [visit, if_pos hft, if_neg hbig]
    simp [Finset.mem_Icc]
  · intro ty sr er tx cs hft ih j
    rw [visit, if_neg hft]
    exact ih j
  · intro j
    rw [visitList]
    simp
  · intro n ns ih1 ih2 j
    rw [visitList]
    simp only [Finset.mem_union, List.mem_append]
    constructor
    · intro h
      rcases h with h | h
      · obtain ⟨c, hc, hj⟩ := (ih1 j).mp h
        exact ⟨c, Or.inl hc, hj⟩
      · obtain ⟨c, hc, hj⟩ := (ih2 j).mp h
        exact ⟨c, Or.inr hc, hj⟩
    · intro ⟨c, hc, hj⟩
      rcases hc with hc | hc
      · exact Or.inl ((ih1 j).mpr ⟨c, hc, hj⟩)
      · exact Or.inr ((ih2 j).mpr ⟨c, hc, hj⟩)

/-- The structural branch of `chunk_by_functions` when the tier emitted at
least one chunk. -/
lemma chunkByFunctions_structural (ft tc : List String) (source : String) (root : TSNode)
    (hne : (visit ft tc root).1
        ++ gapScan (pySplitLines source) (visit ft tc root).2 ≠ []) :
    chunkByFunctions ft tc source (some root)
      = sortByStartLine ((visit ft tc root).1
          ++ gapScan (pySplitLines source) (visit ft tc root).2) := by
  unfold chunkByFunctions
  simp only
  rw [if_neg hne]

/-- C3 (amended): in the structural tier, an uncovered run is emitted as a
gap chunk exactly when its joined text contains a non-whitespace
character — the `GLUE_THRESHOLD = 8` length test is never applied.
Soundness: every emitted gap chunk is a non-blank, fully uncovered run;
completeness: every uncovered non-blank line lies in some gap chunk,
however short its run. -/
theorem gap_emission_iff_nonblank (ft tc : List String) (source : String) (root : TSNode) :
    (∀ c ∈ gapScan (pySplitLines source) (visit ft tc root).2,
      c.kind = "gap" ∧ pyStrip c.content ≠ "" ∧
      c.content = gapText (pySplitLines source) c.startLine c.endLine ∧
      (∀ t, c.startLine ≤ t → t ≤ c.endLine → t ∉ (visit ft tc root).2)) ∧
    (∀ j, 1 ≤ j → j ≤ (pySplitLines source).length → j ∉ (visit ft tc root).2 →
      ¬ (∀ ch ∈ ((pySplitLines source).getD (j - 1) "").data, ch.isWhitespace) →
      ∃ c ∈ gapScan (pySplitLines source) (visit ft tc root).2,
        c.startLine ≤ j ∧ j ≤ c.endLine) := by
  constructor
  · intro c hcm
    have h := gapGo_sound (pySplitLines source).length 1 none (by omega) (le_refl 1)
      (by simp) c hcm
    exact ⟨h.1, h.2.2.2.2.2.2.1, h.2.2.2.2.2.1, h.2.2.2.2.2.2.2⟩
  · intro j h1 hn hj hnb
    exact gapGo_complete (pySplitLines source).length 1 none j (by omega) (le_refl 1)
      (by simp) hj h1 hn hnb (Or.inl h1)

/-- C3 witness at a concrete input: a one-line `import os` glue run
(length 1 < 8) between nothing and a two-line function. -/
theorem gap_emission_iff_nonblank_witness :
    (∀ c ∈ gapScan (pySplitLines "import os\ndef f():\n    pass")
        (visit pythonFuncNodes topLevelContainers
          (.mk "module" 0 2 "import os\ndef f():\n    pass"
            [.mk "import_statement" 0 0 "import os" [],
             .mk "function_definition" 1 2 "def f():\n    pass"
               [.mk "identifier" 1 1 "f" []]])).2,
      c.kind = "gap" ∧ pyStrip c.content ≠ "" ∧
      c.content = gapText (pySplitLines "import os\ndef f():\n    pass")
        c.startLine c.endLine ∧
      (∀ t, c.startLine ≤ t → t ≤ c.endLine → t ∉ (visit pythonFuncNodes
        topLevelContainers (.mk "module" 0 2 "import os\ndef f():\n    pass"
          [.mk "import_statement" 0 0 "import os" [],
           .mk "function_definition" 1 2 "def f():\n    pass"
             [.mk "identifier" 1 1 "f" []]])).2)) ∧
    (1 ≤ 1 ∧ 1 ≤ (pySplitLines "import os\ndef f():\n    pass").length ∧
      1 ∉ (visit pythonFuncNodes topLevelContainers
        (.mk "module" 0 2 "import os\ndef f():\n    pass"
          [.mk "import_statement" 0 0 "import os" [],
           .mk "function_definition" 1 2 "def f():\n    pass"
             [.mk "identifier" 1 1 "f" []]])).2 ∧
      ∃ c ∈ gapScan (pySplitLines "import os\ndef f():\n    pass")
        (visit pythonFuncNodes topLevelContainers
          (.mk "module" 0 2 "import os\ndef f():\n    pass"
            [.mk "import_statement" 0 0 "import os" [],
             .mk "function_definition" 1 2 "def f():\n    pass"
               [.mk "identifier" 1 1 "f" []]])).2,
        c.startLine ≤ 1 ∧ 1 ≤ c.endLine) := by
  have h := gap_emission_iff_nonblank pythonFuncNodes topLevelContainers
    "import os\ndef f():\n    pass"
    (.mk "module" 0 2 "import os\ndef f():\n    pass"
      [.mk "import_statement" 0 0 "import os" [],
       .mk "function_definition" 1 2 "def f():\n    pass"
         [.mk "identifier" 1 1 "f" []]])
  exact ⟨h.1, by decide, by decide, by decide,
    h.2 1 (by decide) (by decide) (by decide) (by decide)⟩

/-- C3 counterexample: the structural tier over a Python module whose
tree-sitter parse has an `import os` line (uncovered run of length 1) and
eight trailing blank lines (uncovered run of length 8).  The 1-line run
is emitted as a gap chunk although 1 < 8, and the 8-line blank run is
not emitted although 8 ≥ 8 — both directions of the claimed
length-threshold rule fail. -/
theorem gap_threshold_not_applied_cex :
    chunkByFunctions pythonFuncNodes topLevelContainers
        "import os\ndef f():\n    pass\n\n\n\n\n\n\n\n"
        (some (.mk "module" 0 10 "import os\ndef f():\n    pass\n\n\n\n\n\n\n\n"
          [.mk "import_statement" 0 0 "import os" [],
           .mk "function_definition" 1 2 "def f():\n    pass"
             [.mk "identifier" 1 1 "f" []]]))
      = [⟨1, 1, "import os", "", "gap"⟩,
         ⟨2, 3, "def f():\n    pass", "f", "function_definition"⟩] ∧
    (pySplitLines "import os\ndef f():\n    pass\n\n\n\n\n\n\n\n").length = 11 ∧
    GLUE_THRESHOLD = 8 := by
  decide

/-- C4 (amended): when the structural tier yields at least one chunk, its
chunks cover every non-blank line at least once; the `covered` set is
exactly the union of the definition-chunk ranges; gap chunks never
overlap a covered line and are pairwise disjoint.  (Exact once-cover
fails: whitespace-only uncovered runs yield no chunk at all, and two
definitions sharing a physical line both cover it — see the
counterexample.) -/
theorem structural_tier_coverage (ft tc : List String) (source : String) (root : TSNode)
    (hne : (visit ft tc root).1
        ++ gapScan (pySplitLines source) (visit ft tc root).2 ≠ []) :
    (∀ j, 1 ≤ j → j ≤ (pySplitLines source).length →
      ¬ (∀ ch ∈ ((pySplitLines source).getD (j - 1) "").data, ch.isWhitespace) →
      ∃ c ∈ chunkByFunctions ft tc source (some root),
        c.startLine ≤ j ∧ j ≤ c.endLine) ∧
    (∀ j, j ∈ (visit ft tc root).2 ↔
      ∃ c ∈ (visit ft tc root).1, c.startLine ≤ j ∧ j ≤ c.endLine) ∧
    (∀ c ∈ gapScan (pySplitLines source) (visit ft tc root).2,
      ∀ t, c.startLine ≤ t → t ≤ c.endLine → t ∉ (visit ft tc root).2) ∧
    List.Pairwise (fun a b => a.endLine < b.startLine)
      (gapScan (pySplitLines source) (visit ft tc root).2) := by
  have hcov := (visit_covered_iff ft tc).1 root
  have hch := chunkByFunctions_structural ft tc source root hne
  refine ⟨?_, hcov, ?_, ?_⟩
  · intro j h1 hn hnb
    by_cases hjc : j ∈ (visit ft tc root).2
    · obtain ⟨c, hc, hj⟩ := (hcov j).mp hjc
      refine ⟨c, ?_, hj⟩
      rw [hch]
      exact mem_sortByStartLine.mpr (List.mem_append_left _ hc)
    · obtain ⟨c, hc, hj⟩ := gapGo_complete (pySplitLines source).length 1 none j
        (by omega) (le_refl 1) (by simp) hjc h1 hn hnb (Or.inl h1)
      refine ⟨c, ?_, hj⟩
      rw [hch]
      exact mem_sortByStartLine.mpr (List.mem_append_right _ hc)
  · intro c hcm
    exact (gapGo_sound (pySplitLines source).length 1 none (by omega) (le_refl 1)
      (by simp) c hcm).2.2.2.2.2.2.2
  · exact (gapGo_lb_pairwise (pySplitLines source).length 1 none (by simp)).2

/-- C4 witness at the concrete Python input of the C3 scenario. -/
theorem structural_tier_coverage_witness :
    ∃ c ∈ chunkByFunctions pythonFuncNodes topLevelContainers
        "import os\ndef f():\n    pass"
        (some (.mk "module" 0 2 "import os\ndef f():\n    pass"
          [.mk "import_statement" 0 0 "import os" [],
           .mk "function_definition" 1 2 "def f():\n    pass"
             [.mk "identifier" 1 1 "f" []]])),
      c.startLine ≤ 1 ∧ 1 ≤ c.endLine :=
  (structural_tier_coverage pythonFuncNodes topLevelContainers
      "import os\ndef f():\n    pass"
      (.mk "module" 0 2 "import os\ndef f():\n    pass"
        [.mk "import_statement" 0 0 "import os" [],
         .mk "function_definition" 1 2 "def f():\n    pass"
           [.mk "identifier" 1 1 "f" []]])
      (by decide)).1 1 (by decide) (by decide) (by decide)

/-- C4 counterexample: a one-line Rust file `fn a() {} fn b() {}` with a
trailing newline.  Both `function_item` nodes span line 1, so line 1 lies
in two chunk ranges, and the whitespace-only line 2 lies in no chunk
range — the claimed exactly-once cover fails in both directions. -/
theorem structural_exact_cover_cex :
    chunkByFunctions rustFuncNodes topLevelContainers "fn a() {} fn b() {}\n"
        (some (.mk "source_file" 0 1 "fn a() {} fn b() {}\n"
          [.mk "function_item" 0 0 "fn a() {}" [],
           .mk "function_item" 0 0 "fn b() {}" []]))
      = [⟨1, 1, "fn a() {}", "", "function_item"⟩,
         ⟨1, 1, "fn b() {}", "", "function_item"⟩] ∧
    (pySplitLines "fn a() {} fn b() {}\n").length = 2 ∧
    ¬ (∃ c ∈ chunkByFunctions rustFuncNodes topLevelContainers "fn a() {} fn b() {}\n"
        (some (.mk "source_file" 0 1 "fn a() {} fn b() {}\n"
          [.mk "function_item" 0 0 "fn a() {}" [],
           .mk "function_item" 0 0 "fn b() {}" []])),
        c.startLine ≤ 2 ∧ 2 ≤ c.endLine) := by
  decide

end CodeRAG
